import Mathlib

/-!
# Verification of the quantum-computing-implementations repository

Shallow embedding of the repository's circuit-construction and evaluation
code (`src/circuits/error_correction.py`, `src/circuits/qaoa.py`,
`src/circuits/qubit_routing.py`) together with proofs of the specified
properties.

Conventions of the embedding:
* Qubit and classical-bit indices are `Nat`.
* Gate angle parameters are rationals (`ℚ`); the Python code passes them
  around symbolically (it never branches on their numeric value), so an
  exact field is a faithful carrier.
* A circuit is its qubit count, classical-bit count and ordered gate list.
* Python exceptions become `Except` errors.
-/

namespace QCImpl

/-- The gate alphabet used by the repository's circuits.  `cu θ φ λ γ c t`
is qiskit's four-parameter controlled-U gate (`QuantumCircuit.cu`), `u` the
single-qubit `U(θ,φ,λ)` gate, `rx` an X-rotation, `measure q c` measures
qubit `q` into classical bit `c`, `swap` is the routing swap gate and
`barrier` the scheduling barrier appended by `QuantumCircuit.barrier()`. -/
inductive Gate where
  | h (q : Nat)
  | cx (c t : Nat)
  | ccx (c₁ c₂ t : Nat)
  | cu (θ φ lam γ : ℚ) (c t : Nat)
  | u (θ φ lam : ℚ) (q : Nat)
  | rx (θ : ℚ) (q : Nat)
  | swap (a b : Nat)
  | measure (q c : Nat)
  | barrier
  deriving DecidableEq, Repr

/-- A quantum circuit: qubit count, classical-bit count and the ordered
gate sequence (qiskit register names are dropped; no claim mentions them). -/
structure Circuit where
  numQubits : Nat
  numClbits : Nat
  gates : List Gate
  deriving DecidableEq, Repr

namespace Gate

/-- Is the gate a controlled-controlled-NOT? -/
def isCCX : Gate → Bool
  | .ccx _ _ _ => true
  | _ => false

/-- Is the gate a CNOT? -/
def isCX : Gate → Bool
  | .cx _ _ => true
  | _ => false

end Gate

/-! ## Error-correction circuits (`src/circuits/error_correction.py`) -/

/-- `QuantumErrorCorrection.create_encoder` (error_correction.py lines 18-35):
3-qubit register, `cx(qr[0], qr[1])` then `cx(qr[0], qr[2])`. -/
def create_encoder : Circuit :=
  { numQubits := 3, numClbits := 0
    gates := [.cx 0 1, .cx 0 2] }

/-- `QuantumErrorCorrection.create_single_error_decoder`
(error_correction.py lines 37-59): 3-qubit register; syndrome CNOTs
`cx(0,1)`, `cx(0,2)`; then Toffoli corrections `ccx(1,2,0)`, `ccx(2,0,1)`,
`ccx(0,1,2)`. -/
def create_single_error_decoder : Circuit :=
  { numQubits := 3, numClbits := 0
    gates := [.cx 0 1, .cx 0 2, .ccx 1 2 0, .ccx 2 0 1, .ccx 0 1 2] }

/-- `QuantumErrorCorrection.create_double_error_decoder`
(error_correction.py lines 61-91): 9-qubit register; syndrome CNOTs
`cx(0,5) cx(1,5) cx(1,6) cx(2,6) cx(2,7) cx(3,7) cx(3,8) cx(4,8)`; then
corrections `ccx(5,7,1) ccx(6,8,3) ccx(5,6,0) ccx(6,7,2) ccx(7,8,4)`. -/
def create_double_error_decoder : Circuit :=
  { numQubits := 9, numClbits := 0
    gates :=
      [.cx 0 5, .cx 1 5, .cx 1 6, .cx 2 6, .cx 2 7, .cx 3 7, .cx 3 8, .cx 4 8,
       .ccx 5 7 1, .ccx 6 8 3, .ccx 5 6 0, .ccx 6 7 2, .ccx 7 8 4] }

/-- The gate sequence claimed for the single-error decoder: CNOT(0→1),
CNOT(0→2), then three CCX gates with controls {1,2} target 0,
controls {2,0} target 1, controls {0,1} target 2, in that order. -/
def claimedSingleDecoderGates : List Gate :=
  [.cx 0 1, .cx 0 2, .ccx 1 2 0, .ccx 2 0 1, .ccx 0 1 2]

/-- The gate sequence claimed for the double-error decoder: for each
syndrome qubit `5+i` (i = 0..3) two CNOTs wiring it to data qubits `i` and
`i+1`, followed by the five CCX correction gates on overlapping syndrome
pairs targeting the data qubits. -/
def claimedDoubleDecoderGates : List Gate :=
  ((List.range 4).flatMap fun i => [.cx i (5 + i), .cx (i + 1) (5 + i)])
    ++ [.ccx 5 7 1, .ccx 6 8 3, .ccx 5 6 0, .ccx 6 7 2, .ccx 7 8 4]

/-- C2: `createSingleErrorDecoder()` returns a 3-qubit circuit whose gate
sequence is exactly CNOT(0→1), CNOT(0→2), then CCX(controls {1,2},
target 0), CCX(controls {2,0}, target 1), CCX(controls {0,1}, target 2),
in this order. -/
theorem single_error_decoder_gate_sequence :
    create_single_error_decoder.numQubits = 3 ∧
    create_single_error_decoder.gates = claimedSingleDecoderGates := by
  decide

/-- C3: `createDoubleErrorDecoder()` returns a 9-qubit circuit whose gates
are exactly the eight syndrome-wiring CNOTs (syndrome qubit `5+i` wired to
data qubits `i`, `i+1` for i = 0..3) followed by exactly five CCX
correction gates, each with both controls among the syndrome qubits 5-8
and its target among the data qubits 0-4, the five control pairs pairwise
distinct and overlapping the chain. -/
theorem double_error_decoder_gate_sequence :
    create_double_error_decoder.numQubits = 9 ∧
    create_double_error_decoder.gates = claimedDoubleDecoderGates ∧
    (create_double_error_decoder.gates.filter Gate.isCCX).length = 5 ∧
    (create_double_error_decoder.gates.take 8).all Gate.isCX = true ∧
    ∀ g ∈ create_double_error_decoder.gates.drop 8,
      ∃ c₁ c₂ t, g = .ccx c₁ c₂ t ∧
        5 ≤ c₁ ∧ c₁ ≤ 8 ∧ 5 ≤ c₂ ∧ c₂ ≤ 8 ∧ t ≤ 4 := by
  refine ⟨rfl, by decide, by decide, by decide, ?_⟩
  intro g hg
  have hcases : g = .ccx 5 7 1 ∨ g = .ccx 6 8 3 ∨ g = .ccx 5 6 0 ∨
      g = .ccx 6 7 2 ∨ g = .ccx 7 8 4 := by
    simpa [create_double_error_decoder] using hg
  rcases hcases with rfl | rfl | rfl | rfl | rfl
  · exact ⟨5, 7, 1, rfl, by decide, by decide, by decide, by decide, by decide⟩
  · exact ⟨6, 8, 3, rfl, by decide, by decide, by decide, by decide, by decide⟩
  · exact ⟨5, 6, 0, rfl, by decide, by decide, by decide, by decide, by decide⟩
  · exact ⟨6, 7, 2, rfl, by decide, by decide, by decide, by decide, by decide⟩
  · exact ⟨7, 8, 4, rfl, by decide, by decide, by decide, by decide, by decide⟩

/-- C3 witness: the structural bound instantiated on the first correction
gate of the double-error decoder. -/
theorem double_error_decoder_gate_sequence_witness :
    ∃ c₁ c₂ t, (Gate.ccx 5 7 1) = .ccx c₁ c₂ t ∧
      5 ≤ c₁ ∧ c₁ ≤ 8 ∧ 5 ≤ c₂ ∧ c₂ ≤ 8 ∧ t ≤ 4 :=
  double_error_decoder_gate_sequence.2.2.2.2 (Gate.ccx 5 7 1) (by decide)

/-! ## QAOA circuit construction (`src/circuits/qaoa.py`) -/

/-- `QAOA.create_qaoa_circuit` (qaoa.py lines 22-57).  The Python code
builds `QuantumCircuit(n, n)` and appends, in order: `h(range(n))`,
`barrier()`, per edge `(k, l, w)`: `cu(0, 0, -2*gamma*w, 0, k, l)`,
`u(0, 0, gamma*w, k)`, `u(0, 0, gamma*w, l)`, then `barrier()`,
`rx(2*beta, range(n))`, `measure(range(n), range(n))`. -/
def create_qaoa_circuit (n : Nat) (graph_edges : List (Nat × Nat × ℚ))
    (gamma beta : ℚ) : Circuit :=
  { numQubits := n, numClbits := n
    gates :=
      ((List.range n).map .h)
        ++ [.barrier]
        ++ (graph_edges.flatMap fun e =>
              [.cu 0 0 (-2 * gamma * e.2.2) 0 e.1 e.2.1,
               .u 0 0 (gamma * e.2.2) e.1,
               .u 0 0 (gamma * e.2.2) e.2.1])
        ++ [.barrier]
        ++ ((List.range n).map (.rx (2 * beta)))
        ++ ((List.range n).map fun i => .measure i i) }

/-- A two-qubit controlled phase gate with angle `lam` on `(c, t)`: in the
qiskit gate alphabet this is `cu` with `θ = φ = 0` and global phase 0,
whose target block is then the phase gate `P(lam) = U(0, 0, lam)`. -/
def controlledPhase (lam : ℚ) (c t : Nat) : Gate := .cu 0 0 lam 0 c t

/-- A single-qubit phase gate with angle `lam`: `P(lam) = U(0, 0, lam)`. -/
def phaseGate (lam : ℚ) (q : Nat) : Gate := .u 0 0 lam q

/-- The gate sequence the ansatz claim describes: Hadamard on each of the
`n` qubits; a barrier; per edge `(u, v, w)` in list order a controlled
phase of angle `-2·gamma·w` on `(u, v)` then phase gates of angle
`gamma·w` on `u` and on `v`; a barrier; an X-rotation of `2·beta` on each
qubit; a measurement of each qubit `i` into classical bit `i`. -/
def claimedAnsatzGates (n : Nat) (edges : List (Nat × Nat × ℚ))
    (gamma beta : ℚ) : List Gate :=
  ((List.range n).map .h)
    ++ [.barrier]
    ++ (edges.flatMap fun e =>
          [controlledPhase (-2 * gamma * e.2.2) e.1 e.2.1,
           phaseGate (gamma * e.2.2) e.1,
           phaseGate (gamma * e.2.2) e.2.1])
    ++ [.barrier]
    ++ ((List.range n).map (.rx (2 * beta)))
    ++ ((List.range n).map fun i => .measure i i)

/-- C4: for every qubit count, edge list and angles, the QAOA ansatz is an
`n`-qubit, `n`-classical-bit circuit whose gate sequence is exactly the
claimed one: Hadamards, barrier, per-edge controlled-phase `-2·gamma·w`
plus phases `gamma·w` on both endpoints, barrier, `rx(2·beta)` layer, and
the identity measurement map. -/
theorem create_qaoa_circuit_gate_sequence (n : Nat)
    (edges : List (Nat × Nat × ℚ)) (gamma beta : ℚ) :
    (create_qaoa_circuit n edges gamma beta).numQubits = n ∧
    (create_qaoa_circuit n edges gamma beta).numClbits = n ∧
    (create_qaoa_circuit n edges gamma beta).gates =
      claimedAnsatzGates n edges gamma beta := by
  refine ⟨rfl, rfl, ?_⟩
  rfl

/-! ## QAOA expectation evaluation (`src/circuits/qaoa.py` lines 76-99)

`compute_expectation` iterates over the counts dictionary in insertion
order; for each `(bitstring, count)` item it first accumulates the cut
cost over all edges (each `bitstring[i]` lookup can raise `IndexError`),
then evaluates `cost * count / total_shots` (raising `ZeroDivisionError`
when `total_shots == 0`).  The dictionary is modelled as an association
list of `(key, count)` pairs in iteration order, keys as `List Char`. -/

/-- The Python exceptions `compute_expectation` can raise. -/
inductive PyError where
  | indexError
  | zeroDivision
  deriving DecidableEq, Repr

/-- The inner loop of `compute_expectation`: starting from `acc`, fold the
edges, adding `w` whenever the two looked-up characters differ; `none`
models Python's `IndexError` on an out-of-range `bitstring[i]`. -/
def cost_of (s : List Char) : List (Nat × Nat × ℚ) → ℚ → Option ℚ
  | [], acc => some acc
  | e :: rest, acc =>
    match s[e.1]?, s[e.2.1]? with
    | some ci, some cj => cost_of s rest (if ci ≠ cj then acc + e.2.2 else acc)
    | _, _ => none

/-- `total_shots = sum(counts.values())`. -/
def totalShots (counts : List (List Char × Nat)) : Nat :=
  (counts.map Prod.snd).sum

/-- The outer loop of `compute_expectation`: per item, compute the cost
(possible `IndexError`), then `expectation += cost * count / total_shots`
(possible `ZeroDivisionError`). -/
def expectation_loop (edges : List (Nat × Nat × ℚ)) (total : Nat) :
    List (List Char × Nat) → ℚ → Except PyError ℚ
  | [], acc => .ok acc
  | p :: rest, acc =>
    match cost_of p.1 edges 0 with
    | none => .error .indexError
    | some cost =>
      if total = 0 then .error .zeroDivision
      else expectation_loop edges total rest (acc + cost * p.2 / total)

/-- `QAOA.compute_expectation` (qaoa.py lines 76-99). -/
def compute_expectation (counts : List (List Char × Nat))
    (edges : List (Nat × Nat × ℚ)) : Except PyError ℚ :=
  expectation_loop edges (totalShots counts) counts 0

/-- The cut value the claim describes: the sum of the weights of the edges
whose two endpoint characters in the bitstring differ. -/
def cutValue (s : List Char) (edges : List (Nat × Nat × ℚ)) : ℚ :=
  (edges.map fun e => if s.getD e.1 ' ' ≠ s.getD e.2.1 ' ' then e.2.2 else 0).sum

/-- When every edge endpoint is in range for `s`, the cost loop terminates
normally and returns the accumulated cut value. -/
lemma cost_of_eq_cutValue (s : List Char) (edges : List (Nat × Nat × ℚ))
    (hrange : ∀ e ∈ edges, e.1 < s.length ∧ e.2.1 < s.length) (acc : ℚ) :
    cost_of s edges acc = some (acc + cutValue s edges) := by
  induction edges generalizing acc with
  | nil => simp [cost_of, cutValue]
  | cons e rest ih =>
    obtain ⟨hi, hj⟩ := hrange e (List.mem_cons_self _ _)
    have hgi : s[e.1]? = some s[e.1] := List.getElem?_eq_getElem hi
    have hgj : s[e.2.1]? = some s[e.2.1] := List.getElem?_eq_getElem hj
    have hdi : s.getD e.1 ' ' = s[e.1] := by
      rw [List.getD_eq_getElem?_getD, hgi, Option.getD_some]
    have hdj : s.getD e.2.1 ' ' = s[e.2.1] := by
      rw [List.getD_eq_getElem?_getD, hgj, Option.getD_some]
    have hrest : ∀ e' ∈ rest, e'.1 < s.length ∧ e'.2.1 < s.length :=
      fun e' h => hrange e' (List.mem_cons_of_mem _ h)
    simp only [cost_of, hgi, hgj, ih hrest, cutValue, List.map_cons,
      List.sum_cons, hdi, hdj]
    by_cases hne : s[e.1] = s[e.2.1]
    · simp [hne]
    · simp only [ne_eq, hne, not_false_eq_true, if_true, Option.some.injEq]
      ring

/-- An out-of-range edge endpoint makes the cost loop fail. -/
lemma cost_of_eq_none (s : List Char) (edges : List (Nat × Nat × ℚ))
    (hbad : ∃ e ∈ edges, s.length ≤ e.1 ∨ s.length ≤ e.2.1) (acc : ℚ) :
    cost_of s edges acc = none := by
  induction edges generalizing acc with
  | nil => simp at hbad
  | cons e rest ih =>
    by_cases hhead : s.length ≤ e.1 ∨ s.length ≤ e.2.1
    · rcases hhead with h | h
      · have hi : s[e.1]? = none := List.getElem?_eq_none h
        cases hj : s[e.2.1]? <;> simp [cost_of, hi, hj]
      · have hj : s[e.2.1]? = none := List.getElem?_eq_none h
        cases hi : s[e.1]? <;> simp [cost_of, hi, hj]
    · push_neg at hhead
      obtain ⟨hi, hj⟩ := hhead
      have hgi : s[e.1]? = some s[e.1] := List.getElem?_eq_getElem hi
      have hgj : s[e.2.1]? = some s[e.2.1] := List.getElem?_eq_getElem hj
      have hbad' : ∃ e' ∈ rest, s.length ≤ e'.1 ∨ s.length ≤ e'.2.1 := by
        rcases hbad with ⟨e', he', hb⟩
        rcases List.mem_cons.mp he' with rfl | hmem
        · exact absurd hb (by push_neg; exact ⟨hi, hj⟩)
        · exact ⟨e', hmem, hb⟩
      simp only [cost_of, hgi, hgj]
      exact ih hbad' _

/-- Dividing a list sum by a constant, elementwise. -/
lemma sum_map_div (l : List ℚ) (c : ℚ) :
    (l.map (· / c)).sum = l.sum / c := by
  induction l with
  | nil => simp
  | cons x xs ih => simp [ih, add_div]

/-- When the total is nonzero and every lookup is in range, the outer loop
accumulates `cutValue · count / total` for each item. -/
lemma expectation_loop_ok (edges : List (Nat × Nat × ℚ)) (total : Nat)
    (counts : List (List Char × Nat)) (htot : total ≠ 0)
    (hrange : ∀ p ∈ counts, ∀ e ∈ edges, e.1 < p.1.length ∧ e.2.1 < p.1.length)
    (acc : ℚ) :
    expectation_loop edges total counts acc =
      .ok (acc + (counts.map fun p => cutValue p.1 edges * p.2 / total).sum) := by
  induction counts generalizing acc with
  | nil => simp [expectation_loop]
  | cons p rest ih =>
    have hp := hrange p (List.mem_cons_self _ _)
    have hrest : ∀ p' ∈ rest, ∀ e ∈ edges, e.1 < p'.1.length ∧ e.2.1 < p'.1.length :=
      fun p' h => hrange p' (List.mem_cons_of_mem _ h)
    have hcost := cost_of_eq_cutValue p.1 edges hp 0
    simp only [expectation_loop, hcost, htot, if_false, ih hrest, zero_add,
      List.map_cons, List.sum_cons]
    congr 1
    ring

/-- C1: for every counts map with positive total count whose keys are long
enough for every edge endpoint, the expectation equals
`Σ (cutValue · count) / totalShots`, where `cutValue` sums the weights of
the edges whose endpoint characters differ; in particular
`expectation({"0000":500,"1111":500}, [(0,1,1),(1,2,1),(2,3,1)]) = 0` and
`expectation({"0101":1000}, [(0,1,1),(1,2,1),(2,3,1)]) = 3`. -/
theorem compute_expectation_correct :
    (∀ (counts : List (List Char × Nat)) (edges : List (Nat × Nat × ℚ)),
        0 < totalShots counts →
        (∀ p ∈ counts, ∀ e ∈ edges, e.1 < p.1.length ∧ e.2.1 < p.1.length) →
        compute_expectation counts edges =
          .ok ((counts.map fun p => cutValue p.1 edges * p.2).sum /
                (totalShots counts : ℚ))) ∧
    compute_expectation [(['0','0','0','0'], 500), (['1','1','1','1'], 500)]
        [(0, 1, 1), (1, 2, 1), (2, 3, 1)] = .ok 0 ∧
    compute_expectation [(['0','1','0','1'], 1000)]
        [(0, 1, 1), (1, 2, 1), (2, 3, 1)] = .ok 3 := by
  refine ⟨?_, ?_, ?_⟩
  case refine_2 => simp [compute_expectation, expectation_loop, cost_of, totalShots]
  case refine_3 =>
    simp [compute_expectation, expectation_loop, cost_of, totalShots]
    norm_num
  intro counts edges htot hrange
  have h := expectation_loop_ok edges (totalShots counts)
    counts (Nat.pos_iff_ne_zero.mp htot) hrange 0
  rw [compute_expectation, h, zero_add]
  congr 1
  have : (counts.map fun p => cutValue p.1 edges * p.2 / (totalShots counts : ℚ)) =
      ((counts.map fun p => cutValue p.1 edges * p.2).map (· / (totalShots counts : ℚ))) := by
    rw [List.map_map]; rfl
  rw [this, sum_map_div]

/-- C1 witness: the general expectation formula instantiated on the
`{"0101": 1000}` histogram and the 3-edge path graph. -/
theorem compute_expectation_correct_witness :
    compute_expectation [(['0','1','0','1'], 1000)]
      [(0, 1, 1), (1, 2, 1), (2, 3, 1)] = .ok 3 := by
  have h := compute_expectation_correct.1 [(['0','1','0','1'], 1000)]
    [(0, 1, 1), (1, 2, 1), (2, 3, 1)] (by decide) (by decide)
  rw [h]
  simp [cutValue, totalShots, List.getD]
  rw [show (['0', '1', '0', '1'][1]) = '1' from rfl, if_neg (by decide)]
  norm_num

/-- C5 counterexample: on the empty counts map — whose counts sum to 0 —
`compute_expectation` returns the numeric result 0 instead of failing:
Python's `sum` over an empty dict is 0 and the loop body that divides by
`total_shots` never executes. -/
theorem compute_expectation_empty_returns_zero :
    totalShots ([] : List (List Char × Nat)) = 0 ∧
    compute_expectation [] [(0, 1, 1)] = .ok 0 :=
  ⟨rfl, rfl⟩

/-- C5 (amended): for every NONEMPTY counts map whose counts sum to zero,
the expectation fails — with `ZeroDivisionError` whenever the first key's
lookups are in range for every edge (otherwise the earlier `IndexError`
wins) — and never returns a numeric result. -/
theorem compute_expectation_zero_total_fails (p : List Char × Nat)
    (rest : List (List Char × Nat)) (edges : List (Nat × Nat × ℚ))
    (htot : totalShots (p :: rest) = 0) :
    (∃ err, compute_expectation (p :: rest) edges = .error err) ∧
    ((∀ e ∈ edges, e.1 < p.1.length ∧ e.2.1 < p.1.length) →
      compute_expectation (p :: rest) edges = .error .zeroDivision) := by
  constructor
  · cases hc : cost_of p.1 edges 0 with
    | none =>
      exact ⟨.indexError, by simp [compute_expectation, expectation_loop, hc]⟩
    | some c =>
      exact ⟨.zeroDivision,
        by simp [compute_expectation, expectation_loop, hc, htot]⟩
  · intro hr
    have hc := cost_of_eq_cutValue p.1 edges hr 0
    simp [compute_expectation, expectation_loop, hc, htot]

/-- C5 witness: the nonempty zero-total histogram `{"00": 0}` fails with
the division error. -/
theorem compute_expectation_zero_total_fails_witness :
    compute_expectation [(['0','0'], 0)] [(0, 1, 1)] = .error .zeroDivision :=
  (compute_expectation_zero_total_fails (['0','0'], 0) [] [(0, 1, 1)]
    (by decide)).2 (by decide)

/-- When every key is long enough for every edge, the outer loop never
raises the indexing error, whatever the total. -/
lemma expectation_loop_no_indexError (edges : List (Nat × Nat × ℚ))
    (total : Nat) (counts : List (List Char × Nat))
    (hrange : ∀ p ∈ counts, ∀ e ∈ edges, e.1 < p.1.length ∧ e.2.1 < p.1.length)
    (acc : ℚ) :
    expectation_loop edges total counts acc ≠ .error .indexError := by
  induction counts generalizing acc with
  | nil => simp [expectation_loop]
  | cons p rest ih =>
    have hp := hrange p (List.mem_cons_self _ _)
    have hc := cost_of_eq_cutValue p.1 edges hp 0
    by_cases ht : total = 0
    · simp [expectation_loop, hc, ht]
    · simp only [expectation_loop, hc, ht, if_false]
      exact ih (fun p' h => hrange p' (List.mem_cons_of_mem _ h)) _

/-- With a nonzero total, a key too short for some edge endpoint surfaces
as the indexing error. -/
lemma expectation_loop_indexError (edges : List (Nat × Nat × ℚ))
    (total : Nat) (counts : List (List Char × Nat)) (htot : total ≠ 0)
    (hbad : ∃ p ∈ counts, ∃ e ∈ edges, p.1.length ≤ e.1 ∨ p.1.length ≤ e.2.1)
    (acc : ℚ) :
    expectation_loop edges total counts acc = .error .indexError := by
  induction counts generalizing acc with
  | nil => simp at hbad
  | cons p rest ih =>
    by_cases hp : ∃ e ∈ edges, p.1.length ≤ e.1 ∨ p.1.length ≤ e.2.1
    · have hc := cost_of_eq_none p.1 edges hp 0
      simp [expectation_loop, hc]
    · push_neg at hp
      have hc := cost_of_eq_cutValue p.1 edges hp 0
      have hbad' : ∃ p' ∈ rest, ∃ e ∈ edges,
          p'.1.length ≤ e.1 ∨ p'.1.length ≤ e.2.1 := by
        rcases hbad with ⟨p', hp', e, he, hb⟩
        rcases List.mem_cons.mp hp' with rfl | hmem
        · exact absurd hb (by
            rcases hp e he with ⟨h1, h2⟩
            push_neg
            exact ⟨h1, h2⟩)
        · exact ⟨p', hmem, e, he, hb⟩
      simp only [expectation_loop, hc, htot, if_false]
      exact ih hbad' _

/-- C10 (amended): `compute_expectation` indexes every key at both
endpoints of every edge.  (a) When every key is long enough for every edge
endpoint the run never raises the indexing error.  (b) When the total
count is positive and some key is shorter than some edge endpoint index
plus one, the run fails with the indexing error.  (When the total is zero
a division error can fire first; see the counterexample.) -/
theorem compute_expectation_index_in_range :
    (∀ (counts : List (List Char × Nat)) (edges : List (Nat × Nat × ℚ)),
        (∀ p ∈ counts, ∀ e ∈ edges, e.1 < p.1.length ∧ e.2.1 < p.1.length) →
        compute_expectation counts edges ≠ .error .indexError) ∧
    (∀ (counts : List (List Char × Nat)) (edges : List (Nat × Nat × ℚ)),
        0 < totalShots counts →
        (∃ p ∈ counts, ∃ e ∈ edges, p.1.length ≤ e.1 ∨ p.1.length ≤ e.2.1) →
        compute_expectation counts edges = .error .indexError) := by
  constructor
  · intro counts edges hrange
    exact expectation_loop_no_indexError edges (totalShots counts) counts hrange 0
  · intro counts edges htot hbad
    exact expectation_loop_indexError edges (totalShots counts) counts
      (Nat.pos_iff_ne_zero.mp htot) hbad 0

/-- C10 witness: the single-item histogram `{"0": 5}` against edge (0,1)
has a key of length 1 ≤ endpoint index 1 and raises the indexing error. -/
theorem compute_expectation_index_in_range_witness :
    compute_expectation [(['0'], 5)] [(0, 1, 1)] = .error .indexError :=
  compute_expectation_index_in_range.2 [(['0'], 5)] [(0, 1, 1)]
    (by decide)
    ⟨(['0'], 5), List.mem_cons_self _ _, (0, 1, 1), List.mem_cons_self _ _,
      by decide⟩

/-- C10 counterexample: with zero total shots, a histogram whose SECOND
key ("0") is too short for edge (0,1) fails with the division error, not
the indexing error — the first item's cost is in range, so the division by
`total_shots = 0` fires before the short key is ever indexed. -/
theorem compute_expectation_short_key_not_indexError :
    (∃ p ∈ [(['0','0'], 0), (['0'], 0)], ∃ e ∈ [((0:Nat), (1:Nat), (1:ℚ))],
        p.1.length ≤ e.1 ∨ p.1.length ≤ e.2.1) ∧
    compute_expectation [(['0','0'], 0), (['0'], 0)] [(0, 1, 1)] =
      .error .zeroDivision ∧
    compute_expectation [(['0','0'], 0), (['0'], 0)] [(0, 1, 1)] ≠
      .error .indexError := by
  refine ⟨⟨(['0'], 0), by simp, (0, 1, 1), by simp, by decide⟩, ?_, ?_⟩
  · simp [compute_expectation, expectation_loop, cost_of, totalShots]
  · simp [compute_expectation, expectation_loop, cost_of, totalShots]

/-! ## Basis decomposition (`src/circuits/qubit_routing.py` lines 24-37)

`QubitRouter.decompose_circuit` delegates the whole rewriting to the
external transpiler (`qiskit.compiler.transpile`); only the call site is
in the repository, so the decomposer itself is modelled from the spec. -/

/-- Gate kinds — the vocabulary of a basis-gate list. -/
inductive GateName where
  | h | cx | ccx | cu | u | rx | swapName | measureName | barrierName
  deriving DecidableEq, Repr

/-- The kind of a gate. -/
def Gate.name : Gate → GateName
  | .h _ => .h
  | .cx _ _ => .cx
  | .ccx _ _ _ => .ccx
  | .cu _ _ _ _ _ _ => .cu
  | .u _ _ _ _ => .u
  | .rx _ _ => .rx
  | .swap _ _ => .swapName
  | .measure _ _ => .measureName
  | .barrier => .barrierName

/-- The error taxonomy of the spec's transpilation component (§7). -/
inductive RouteError where
  | unsupportedGate
  | disconnectedGraph
  deriving DecidableEq, Repr

/-- Modelled from the spec: one step of the Basis Decomposer of §4.4 with
the shared read-only decomposition rule table of §5 (both live inside the
external transpiler, not under src/).  A gate whose name already lies in
the allowed alphabet is kept; otherwise the rule table supplies its
replacement sequence; a gate with no rule fails with UnsupportedGate. -/
def rewriteGate (rules : Gate → Option (List Gate)) (basis_gates : List GateName)
    (g : Gate) : Except RouteError (List Gate) :=
  if g.name ∈ basis_gates then .ok [g]
  else
    match rules g with
    | some out => .ok out
    | none => .error .unsupportedGate

/-- Modelled from the spec: the Basis Decomposer applied to a gate
sequence, concatenating the per-gate rewrites. -/
def decomposeGates (rules : Gate → Option (List Gate))
    (basis_gates : List GateName) : List Gate → Except RouteError (List Gate)
  | [] => .ok []
  | g :: gs =>
    match rewriteGate rules basis_gates g with
    | .error e => .error e
    | .ok out =>
      match decomposeGates rules basis_gates gs with
      | .error e => .error e
      | .ok rest => .ok (out ++ rest)

/-- Modelled from the spec:
`decompose(circuit, basisGates, optimizationLevel) -> Circuit'` (§4.4).
The optimization level selects optional extra simplification, which no
claim constrains; the model accepts and ignores it. -/
def decompose_circuit (rules : Gate → Option (List Gate))
    (basis_gates : List GateName) (optimization_level : Nat)
    (circuit : Circuit) : Except RouteError Circuit :=
  (decomposeGates rules basis_gates circuit.gates).map
    fun gs => { circuit with gates := gs }

/-- A successful rewrite only emits gates of the allowed alphabet,
provided the rule table does. -/
lemma rewriteGate_names (rules : Gate → Option (List Gate))
    (basis_gates : List GateName)
    (hrules : ∀ g out, rules g = some out → ∀ g' ∈ out, g'.name ∈ basis_gates)
    (g : Gate) (out : List Gate) (h : rewriteGate rules basis_gates g = .ok out) :
    ∀ g' ∈ out, g'.name ∈ basis_gates := by
  by_cases hb : g.name ∈ basis_gates
  · simp only [rewriteGate, hb, if_pos, Except.ok.injEq] at h
    subst h
    simpa using hb
  · simp only [rewriteGate, hb, if_false] at h
    cases hr : rules g with
    | none => rw [hr] at h; exact absurd h (by simp)
    | some o =>
      rw [hr] at h
      simp only [Except.ok.injEq] at h
      subst h
      exact hrules g _ hr

/-- A gate in the allowed alphabet is kept untouched. -/
lemma rewriteGate_basis (rules : Gate → Option (List Gate))
    (basis_gates : List GateName) (g : Gate) (hb : g.name ∈ basis_gates) :
    rewriteGate rules basis_gates g = .ok [g] := by
  simp [rewriteGate, hb]

/-- A successful full rewrite only emits gates of the allowed alphabet. -/
lemma decomposeGates_names (rules : Gate → Option (List Gate))
    (basis_gates : List GateName)
    (hrules : ∀ g out, rules g = some out → ∀ g' ∈ out, g'.name ∈ basis_gates) :
    ∀ (gs out : List Gate), decomposeGates rules basis_gates gs = .ok out →
      ∀ g ∈ out, g.name ∈ basis_gates := by
  intro gs
  induction gs with
  | nil =>
    intro out h
    simp only [decomposeGates, Except.ok.injEq] at h
    subst h
    simp
  | cons g gs ih =>
    intro out h
    cases h1 : rewriteGate rules basis_gates g with
    | error e => simp [decomposeGates, h1] at h
    | ok o =>
      cases h2 : decomposeGates rules basis_gates gs with
      | error e => simp [decomposeGates, h1, h2] at h
      | ok rest =>
        simp only [decomposeGates, h1, h2, Except.ok.injEq] at h
        subst h
        intro g' hg'
        rcases List.mem_append.mp hg' with hmem | hmem
        · exact rewriteGate_names rules basis_gates hrules g o h1 g' hmem
        · exact ih rest h2 g' hmem

/-- A gate sequence already inside the allowed alphabet is a fixed point
of the rewrite. -/
lemma decomposeGates_fixed (rules : Gate → Option (List Gate))
    (basis_gates : List GateName) :
    ∀ gs : List Gate, (∀ g ∈ gs, g.name ∈ basis_gates) →
      decomposeGates rules basis_gates gs = .ok gs := by
  intro gs
  induction gs with
  | nil => intro _; rfl
  | cons g gs ih =>
    intro h
    have hb := h g (List.mem_cons_self _ _)
    have hrest := ih fun g' hg' => h g' (List.mem_cons_of_mem _ hg')
    simp [decomposeGates, rewriteGate_basis rules basis_gates g hb, hrest]

/-- C6: decomposition is idempotent — re-decomposing the result of
`decompose(c, basis, lvl)` with the same rule table, basis gates and
optimization level returns that result unchanged (stated with `bind`, so
it also covers the failing case, where both sides are the same error). -/
theorem decompose_circuit_idempotent (rules : Gate → Option (List Gate))
    (basis_gates : List GateName) (optimization_level : Nat) (c : Circuit)
    (hrules : ∀ g out, rules g = some out → ∀ g' ∈ out, g'.name ∈ basis_gates) :
    (decompose_circuit rules basis_gates optimization_level c).bind
        (decompose_circuit rules basis_gates optimization_level) =
      decompose_circuit rules basis_gates optimization_level c := by
  cases hg : decomposeGates rules basis_gates c.gates with
  | error e => simp [decompose_circuit, hg, Except.map, Except.bind]
  | ok gs =>
    have hnames := decomposeGates_names rules basis_gates hrules c.gates gs hg
    have hfix := decomposeGates_fixed rules basis_gates gs hnames
    simp [decompose_circuit, hg, hfix, Except.map, Except.bind]

/-- C6 witness: a concrete rule table (Hadamard rewritten to a `u` gate;
the parameter values play no role in idempotence), the repository's
default basis `['cx', 'u']`, and the routing test's 2-qubit circuit. -/
theorem decompose_circuit_idempotent_witness :
    (decompose_circuit
          (fun g => match g with
            | .h q => some [.u (1 / 2) 0 1 q]
            | _ => none)
          [.cx, .u] 1 ⟨2, 0, [.h 0, .cx 0 1]⟩).bind
        (decompose_circuit
          (fun g => match g with
            | .h q => some [.u (1 / 2) 0 1 q]
            | _ => none)
          [.cx, .u] 1) =
      decompose_circuit
        (fun g => match g with
          | .h q => some [.u (1 / 2) 0 1 q]
          | _ => none)
        [.cx, .u] 1 ⟨2, 0, [.h 0, .cx 0 1]⟩ := by
  apply decompose_circuit_idempotent
  intro g out h g' hg'
  cases g <;> try exact Option.noConfusion h
  case h q =>
    have hout : out = [Gate.u (1 / 2) 0 1 q] := by simpa using h.symm
    subst hout
    have hg : g' = Gate.u (1 / 2) 0 1 q := by simpa using hg'
    subst hg
    simp [Gate.name]

/-! ## The `optimize_layout` transpile call (`src/circuits/qubit_routing.py`
lines 39-54) -/

/-- The layout/routing methods named at the call site. -/
inductive RoutingMethod where
  | sabre
  deriving DecidableEq, Repr

/-- The keyword arguments `QubitRouter.optimize_layout` passes to
`qiskit.compiler.transpile`, one field per keyword of the call; `none`
marks a keyword the call site leaves unset. -/
structure TranspileArgs where
  basis_gates : List GateName
  coupling_map : Option (List (Nat × Nat))
  layout_method : Option RoutingMethod
  routing_method : Option RoutingMethod
  seed_transpiler : Option Nat
  deriving DecidableEq, Repr

/-- The argument record of the one `transpile` call inside
`optimize_layout` (qubit_routing.py lines 50-54): basis gates and coupling
map are forwarded, both methods are `'sabre'`, and no seed keyword is
passed; the surrounding method's own signature is
`optimize_layout(self, circuit, coupling_map)` — no seed parameter. -/
def optimize_layout_transpile_args (basis_gates : List GateName)
    (coupling_map : List (Nat × Nat)) : TranspileArgs :=
  { basis_gates := basis_gates
    coupling_map := some coupling_map
    layout_method := some .sabre
    routing_method := some .sabre
    seed_transpiler := none }

/-- C7 (divergence evidence): for every basis-gate list and coupling map,
the transpile call `optimize_layout` issues selects the randomized SABRE
layout method yet passes no transpiler seed — there is no caller-supplied
seed parameter controlling the randomized initial layout, contradicting
the claimed determinism contract. -/
theorem optimize_layout_call_unseeded (basis_gates : List GateName)
    (coupling_map : List (Nat × Nat)) :
    (optimize_layout_transpile_args basis_gates coupling_map).layout_method
        = some .sabre ∧
    (optimize_layout_transpile_args basis_gates coupling_map).seed_transpiler
        = none :=
  ⟨rfl, rfl⟩

/-! ## Qubit layout / routing (`src/circuits/qubit_routing.py` lines 39-54)

`QubitRouter.optimize_layout` likewise delegates to the external
transpiler, so the Qubit Layout/Router component of §4.5 is modelled from
the spec: a reachability guard over the coupling graph (DisconnectedGraph
when the coupling map exposes fewer reachable physical qubits than the
circuit has logical qubits), then greedy swap-insertion routing over an
identity initial layout, and the result record
`{circuit, depth, size, gateCounts}` computed per §4.1. -/

/-- The physical qubits the coupling map mentions. -/
def couplingVertices (cm : List (Nat × Nat)) : List Nat :=
  ((cm.map Prod.fst) ++ (cm.map Prod.snd)).dedup

/-- Undirected adjacency in the coupling graph. -/
def adjacentIn (cm : List (Nat × Nat)) (a b : Nat) : Bool :=
  cm.any fun e => (e.1 == a && e.2 == b) || (e.1 == b && e.2 == a)

/-- One closure step: add every vertex adjacent to the current set. -/
def neighborStep (cm : List (Nat × Nat)) (s : List Nat) : List Nat :=
  (s ++ cm.foldr (fun e acc =>
      if e.1 ∈ s then e.2 :: acc else if e.2 ∈ s then e.1 :: acc else acc)
    []).dedup

/-- The physical qubits reachable from `v`; iterating the closure step
once per vertex reaches the fixed point. -/
def reachableFrom (cm : List (Nat × Nat)) (v : Nat) : List Nat :=
  (neighborStep cm)^[(couplingVertices cm).length] [v]

/-- The number of reachable physical qubits the coupling map exposes: the
size of its largest connected component. -/
def maxReachable (cm : List (Nat × Nat)) : Nat :=
  ((couplingVertices cm).map fun v => (reachableFrom cm v).length).foldr max 0

/-- Grow breadth-first frontiers (paths stored reversed, head = frontier
vertex), never revisiting a vertex already on the same path. -/
def bfsExtend (cm : List (Nat × Nat)) (frontier : List (List Nat)) :
    List (List Nat) :=
  frontier.flatMap fun p =>
    match p with
    | [] => []
    | v :: _ =>
      (couplingVertices cm).filterMap fun w =>
        if adjacentIn cm v w && !(p.contains w) then some (w :: p) else none

/-- Fuelled breadth-first search for a path ending at `dst`. -/
def bfsSearch (cm : List (Nat × Nat)) (dst : Nat) :
    Nat → List (List Nat) → Option (List Nat)
  | 0, _ => none
  | fuel + 1, frontier =>
    match frontier.find? (fun p => p.head? == some dst) with
    | some p => some p.reverse
    | none => bfsSearch cm dst fuel (bfsExtend cm frontier)

/-- A shortest coupling-graph path `src :: … :: dst`. -/
def findPath (cm : List (Nat × Nat)) (src dst : Nat) : Option (List Nat) :=
  bfsSearch cm dst ((couplingVertices cm).length + 1) [[src]]

/-- Update the logical→physical layout after swapping physical `p`/`q`. -/
def applySwapLayout (layout : Nat → Nat) (p q : Nat) : Nat → Nat := fun l =>
  if layout l = p then q else if layout l = q then p else layout l

/-- Swap gates walking a path's first vertex next to its last, together
with the updated layout. -/
def pathSwaps (layout : Nat → Nat) : List Nat → List Gate × (Nat → Nat)
  | [] => ([], layout)
  | [_] => ([], layout)
  | [_, _] => ([], layout)
  | p :: q :: rest =>
    let tail := pathSwaps (applySwapLayout layout p q) (q :: rest)
    (Gate.swap p q :: tail.1, tail.2)

/-- Route a gate sequence greedily: single-qubit gates are relabelled
through the layout; a two-qubit gate whose physical operands are not
adjacent first gets swaps inserted along a shortest path.  (CCX gates are
assumed already decomposed to the two-qubit alphabet; they are relabelled
only.)  `none` models an unroutable pair. -/
def routeGates (cm : List (Nat × Nat)) :
    List Gate → (Nat → Nat) → Option (List Gate)
  | [], _ => some []
  | g :: gs, layout =>
    let route2 := fun (rebuild : Nat → Nat → Gate) (a b : Nat) =>
      if adjacentIn cm (layout a) (layout b) then
        (routeGates cm gs layout).map
          fun rest => rebuild (layout a) (layout b) :: rest
      else
        match findPath cm (layout a) (layout b) with
        | none => none
        | some path =>
          let sp := pathSwaps layout path
          (routeGates cm gs sp.2).map
            fun rest => sp.1 ++ [rebuild (sp.2 a) (sp.2 b)] ++ rest
    match g with
    | .h q => (routeGates cm gs layout).map fun rest => .h (layout q) :: rest
    | .u θ φ lam q =>
      (routeGates cm gs layout).map fun rest => .u θ φ lam (layout q) :: rest
    | .rx θ q =>
      (routeGates cm gs layout).map fun rest => .rx θ (layout q) :: rest
    | .measure q c =>
      (routeGates cm gs layout).map fun rest => .measure (layout q) c :: rest
    | .barrier => (routeGates cm gs layout).map fun rest => .barrier :: rest
    | .ccx a b t =>
      (routeGates cm gs layout).map
        fun rest => .ccx (layout a) (layout b) (layout t) :: rest
    | .cx a b => route2 .cx a b
    | .swap a b => route2 .swap a b
    | .cu θ φ lam γ a b => route2 (.cu θ φ lam γ) a b

/-- Total gate count, spec §4.1 `size()`. -/
def size (c : Circuit) : Nat := c.gates.length

/-- Gate-kind occurrence counts, spec §4.1 `countOps()`. -/
def countOps (c : Circuit) : GateName → Nat := fun n =>
  (c.gates.filter fun g => g.name == n).length

/-- The qubit operands of a gate (barriers touch no depth counter). -/
def Gate.operands : Gate → List Nat
  | .h q => [q]
  | .cx c t => [c, t]
  | .ccx a b t => [a, b, t]
  | .cu _ _ _ _ c t => [c, t]
  | .u _ _ _ q => [q]
  | .rx _ q => [q]
  | .swap a b => [a, b]
  | .measure q _ => [q]
  | .barrier => []

/-- Critical-path depth, spec §4.1: each gate's layer is one past the
maximum of its operands' running layer counters, which it then updates. -/
def depthLoop : List Gate → (Nat → Nat) → Nat → Nat
  | [], _, best => best
  | .barrier :: gs, layers, best => depthLoop gs layers best
  | g :: gs, layers, best =>
    let l := (g.operands.map layers).foldr max 0 + 1
    depthLoop gs (fun q => if q ∈ g.operands then l else layers q) (max best l)

/-- Spec §4.1 `depth()`. -/
def depth (c : Circuit) : Nat := depthLoop c.gates (fun _ => 0) 0

/-- The result record of `optimizeLayout` (§4.5). -/
structure RouteResult where
  circuit : Circuit
  depth : Nat
  size : Nat
  gate_counts : GateName → Nat

/-- Modelled from the spec:
`optimizeLayout(circuit, couplingMap) -> {circuit, depth, size, gateCounts}`
(§4.5) — the algorithm lives in the external transpiler, only its call
site `QubitRouter.optimize_layout` is in the repository.  Fails with
DisconnectedGraph when the coupling map exposes fewer reachable physical
qubits than the circuit's logical qubit count; otherwise routes over the
identity initial layout and returns the routed circuit with its metrics. -/
def optimize_layout (circuit : Circuit) (coupling_map : List (Nat × Nat)) :
    Except RouteError RouteResult :=
  if maxReachable coupling_map < circuit.numQubits then
    .error .disconnectedGraph
  else
    match routeGates coupling_map circuit.gates id with
    | none => .error .disconnectedGraph
    | some gs =>
      let c : Circuit :=
        { numQubits := (couplingVertices coupling_map).foldr max 0 + 1
          numClbits := circuit.numClbits
          gates := gs }
      .ok { circuit := c, depth := depth c, size := size c
            gate_counts := countOps c }

/-- C8: whenever the coupling map exposes fewer reachable physical qubits
than the circuit's logical qubit count, `optimizeLayout` fails with
DisconnectedGraph rather than returning a result. -/
theorem optimize_layout_disconnected (circuit : Circuit)
    (coupling_map : List (Nat × Nat))
    (hsmall : maxReachable coupling_map < circuit.numQubits) :
    optimize_layout circuit coupling_map = .error .disconnectedGraph := by
  simp [optimize_layout, hsmall]

/-- C8 witness: the routing test's 3-qubit circuit `cx(0,1); cx(1,2)`
against the single-edge coupling map `[(0,1)]`, which reaches only two
physical qubits. -/
theorem optimize_layout_disconnected_witness :
    optimize_layout ⟨3, 0, [.cx 0 1, .cx 1 2]⟩ [(0, 1)] =
      .error .disconnectedGraph :=
  optimize_layout_disconnected ⟨3, 0, [.cx 0 1, .cx 1 2]⟩ [(0, 1)] (by decide)

/-! ## Ideal statevector semantics

Modelled from the spec: the Simulator collaborator of §6
(`run(circuit) -> stateVector`), which the repository assumes but does not
implement.  A state assigns a complex amplitude to every classical
assignment of the qubits; each gate acts by its standard unitary matrix
(qiskit conventions: `U(θ,φ,λ)`, `CU(θ,φ,λ,γ)` with the extra global
phase `γ` on the controlled block, `RX(θ)`), measurements sit at the end
of every circuit built here and are read off the final amplitudes. -/

/-- A statevector, as amplitudes over classical assignments. -/
abbrev QState := (Nat → Bool) → ℂ

/-- `e^{iθ}` for a rational angle `θ` (radians). -/
noncomputable def phase (θ : ℚ) : ℂ := Complex.exp ((θ : ℂ) * Complex.I)

/-- The action of one gate on a statevector. -/
noncomputable def applyGate : Gate → QState → QState
  | .h q, ψ => fun x =>
      (ψ (Function.update x q false) +
        (if x q then -1 else 1) * ψ (Function.update x q true)) /
        (Real.sqrt 2 : ℝ)
  | .cx c t, ψ => fun x =>
      ψ (if x c then Function.update x t (!(x t)) else x)
  | .ccx a b t, ψ => fun x =>
      ψ (if x a && x b then Function.update x t (!(x t)) else x)
  | .swap a b, ψ => fun x =>
      ψ (Function.update (Function.update x a (x b)) b (x a))
  | .rx θ q, ψ => fun x =>
      Complex.cos ((θ : ℂ) / 2) * ψ x -
        Complex.I * Complex.sin ((θ : ℂ) / 2) * ψ (Function.update x q (!(x q)))
  | .u θ φ lam q, ψ => fun x =>
      if x q then
        phase φ * Complex.sin ((θ : ℂ) / 2) * ψ (Function.update x q false) +
          phase (φ + lam) * Complex.cos ((θ : ℂ) / 2) * ψ (Function.update x q true)
      else
        Complex.cos ((θ : ℂ) / 2) * ψ (Function.update x q false) -
          phase lam * Complex.sin ((θ : ℂ) / 2) * ψ (Function.update x q true)
  | .cu θ φ lam γ c t, ψ => fun x =>
      if x c then
        phase γ *
          (if x t then
            phase φ * Complex.sin ((θ : ℂ) / 2) * ψ (Function.update x t false) +
              phase (φ + lam) * Complex.cos ((θ : ℂ) / 2) *
                ψ (Function.update x t true)
          else
            Complex.cos ((θ : ℂ) / 2) * ψ (Function.update x t false) -
              phase lam * Complex.sin ((θ : ℂ) / 2) * ψ (Function.update x t true))
      else ψ x
  | .measure _ _, ψ => ψ
  | .barrier, ψ => ψ

/-- A gate sequence acts left to right. -/
noncomputable def applyGates (gs : List Gate) (ψ : QState) : QState :=
  gs.foldl (fun σ g => applyGate g σ) ψ

/-- The all-zeros initial state on `n` qubits. -/
noncomputable def initState (n : Nat) : QState := fun x =>
  if (List.range n).all (fun i => !(x i)) then 1 else 0

/-- The final statevector of a circuit from `|0…0⟩`. -/
noncomputable def runCircuit (c : Circuit) : QState :=
  applyGates c.gates (initState c.numQubits)

/-- The final measurement distribution: the Born probability of reading
the classical assignment `x` (all measurements here are the trailing
identity map qubit `i` → classical bit `i`). -/
noncomputable def distribution (c : Circuit) (x : Nat → Bool) : ℝ :=
  Complex.abs (runCircuit c x) ^ 2

lemma applyGates_append (l₁ l₂ : List Gate) (ψ : QState) :
    applyGates (l₁ ++ l₂) ψ = applyGates l₂ (applyGates l₁ ψ) := by
  simp [applyGates, List.foldl_append]

lemma phase_zero : phase 0 = 1 := by simp [phase]

/-- `CU(0,0,λ,0)` — the controlled phase gate — is diagonal: it multiplies
the amplitude by `e^{iλ}` exactly when both qubits read 1. -/
lemma applyGate_cphase (lam : ℚ) (c t : Nat) (ψ : QState) :
    applyGate (.cu 0 0 lam 0 c t) ψ = fun x =>
      (if x c && x t then phase lam else 1) * ψ x := by
  funext x
  simp only [applyGate]
  cases hc : x c with
  | false => simp [hc]
  | true =>
    cases hxt : x t with
    | false =>
      have hupd : Function.update x t false = x := by
        rw [← hxt]; exact Function.update_eq_self t x
      simp [hc, hxt, hupd, phase_zero]
    | true =>
      have hupd : Function.update x t true = x := by
        rw [← hxt]; exact Function.update_eq_self t x
      simp [hc, hxt, hupd, phase_zero]

/-- `U(0,0,λ)` — the phase gate — is diagonal: it multiplies the amplitude
by `e^{iλ}` exactly when the qubit reads 1. -/
lemma applyGate_phasegate (lam : ℚ) (q : Nat) (ψ : QState) :
    applyGate (.u 0 0 lam q) ψ = fun x =>
      (if x q then phase lam else 1) * ψ x := by
  funext x
  simp only [applyGate]
  cases hq : x q with
  | false =>
    have hupd : Function.update x q false = x := by
      rw [← hq]; exact Function.update_eq_self q x
    simp [hq, hupd, phase_zero]
  | true =>
    have hupd : Function.update x q true = x := by
      rw [← hq]; exact Function.update_eq_self q x
    simp [hq, hupd, phase_zero]

/-- The three gates `create_qaoa_circuit` emits for one edge. -/
def edgeGadget (gamma : ℚ) (e : Nat × Nat × ℚ) : List Gate :=
  [.cu 0 0 (-2 * gamma * e.2.2) 0 e.1 e.2.1,
   .u 0 0 (gamma * e.2.2) e.1,
   .u 0 0 (gamma * e.2.2) e.2.1]

/-- The diagonal factor one edge gadget contributes at assignment `x`. -/
noncomputable def diagFactor (gamma : ℚ) (e : Nat × Nat × ℚ)
    (x : Nat → Bool) : ℂ :=
  (if x e.1 && x e.2.1 then phase (-2 * gamma * e.2.2) else 1) *
    ((if x e.1 then phase (gamma * e.2.2) else 1) *
      (if x e.2.1 then phase (gamma * e.2.2) else 1))

/-- One edge gadget acts diagonally, by its `diagFactor`. -/
lemma applyGates_edgeGadget (gamma : ℚ) (e : Nat × Nat × ℚ) (ψ : QState) :
    applyGates (edgeGadget gamma e) ψ = fun x => diagFactor gamma e x * ψ x := by
  funext x
  simp only [edgeGadget, applyGates, List.foldl_cons, List.foldl_nil]
  show applyGate (.u 0 0 (gamma * e.2.2) e.2.1)
      (applyGate (.u 0 0 (gamma * e.2.2) e.1)
        (applyGate (.cu 0 0 (-2 * gamma * e.2.2) 0 e.1 e.2.1) ψ)) x =
    diagFactor gamma e x * ψ x
  rw [applyGate_cphase, applyGate_phasegate, applyGate_phasegate, diagFactor]
  ring

/-- The whole edge layer acts diagonally, by the product of the per-edge
factors. -/
lemma applyGates_edgeLayer (gamma : ℚ) (edges : List (Nat × Nat × ℚ))
    (ψ : QState) :
    applyGates (edges.flatMap (edgeGadget gamma)) ψ =
      fun x => (edges.map fun e => diagFactor gamma e x).prod * ψ x := by
  induction edges generalizing ψ with
  | nil => funext x; simp [applyGates]
  | cons e rest ih =>
    funext x
    rw [List.flatMap_cons, applyGates_append, applyGates_edgeGadget, ih]
    simp only [List.map_cons, List.prod_cons]
    ring

/-- C9: permuting the edge list does not change the ansatz's final
measurement distribution under ideal simulation — the per-edge gadgets are
diagonal (commuting) phase operators, so their product is order-free while
the Hadamard, mixing and measurement layers are identical. -/
theorem qaoa_distribution_edge_order_invariant (n : Nat)
    (edges edges' : List (Nat × Nat × ℚ)) (gamma beta : ℚ)
    (hperm : edges.Perm edges') (x : Nat → Bool) :
    distribution (create_qaoa_circuit n edges gamma beta) x =
      distribution (create_qaoa_circuit n edges' gamma beta) x := by
  have hgates : ∀ es : List (Nat × Nat × ℚ),
      (create_qaoa_circuit n es gamma beta).gates =
        (((List.range n).map Gate.h ++ [Gate.barrier]) ++
            es.flatMap (edgeGadget gamma)) ++
          ([Gate.barrier] ++ ((List.range n).map (Gate.rx (2 * beta)) ++
            (List.range n).map fun i => Gate.measure i i)) := by
    intro es
    simp only [create_qaoa_circuit, List.append_assoc]
    rfl
  have hmid : applyGates (edges.flatMap (edgeGadget gamma)) =
      applyGates (edges'.flatMap (edgeGadget gamma)) := by
    funext ψ
    rw [applyGates_edgeLayer, applyGates_edgeLayer]
    funext y
    have hp : (edges.map fun e => diagFactor gamma e y).Perm
        (edges'.map fun e => diagFactor gamma e y) := hperm.map _
    rw [hp.prod_eq]
  have hrun : runCircuit (create_qaoa_circuit n edges gamma beta) =
      runCircuit (create_qaoa_circuit n edges' gamma beta) := by
    show applyGates (create_qaoa_circuit n edges gamma beta).gates (initState n) =
      applyGates (create_qaoa_circuit n edges' gamma beta).gates (initState n)
    rw [hgates edges, hgates edges']
    simp only [applyGates_append]
    rw [hmid]
  simp [distribution, hrun]

/-- C9 witness: a two-edge list and its transposition give the same
distribution at the all-zeros outcome. -/
theorem qaoa_distribution_edge_order_invariant_witness :
    distribution (create_qaoa_circuit 2 [(0, 1, 1), (0, 1, 2)] 1 1)
        (fun _ => false) =
      distribution (create_qaoa_circuit 2 [(0, 1, 2), (0, 1, 1)] 1 1)
        (fun _ => false) :=
  qaoa_distribution_edge_order_invariant 2 [(0, 1, 1), (0, 1, 2)]
    [(0, 1, 2), (0, 1, 1)] 1 1 (List.Perm.swap (0, 1, 2) (0, 1, 1) [])
    (fun _ => false)

end QCImpl
